import Mathlib

/-!
Shallow embedding of `src/build.py`, a build-time pipeline that normalizes a
flat list of live-TV channel records, classifies them into canonical
categories, and emits a paginated static catalog.

Strings are Lean `String`s manipulated through their `List Char` data.  The
Python string primitives used by the source (`str.strip`, `str.lower`,
`str.upper`, the regex classes `\w` and `\s`) are modelled on their ASCII
fragment: `\w` is `[A-Za-z0-9_]`, `\s` is the six ASCII whitespace
characters, and case folding is the ASCII one.  JSON values are the
inductive `JVal`; Python truthiness and `dict.get` are modelled explicitly.
-/

/-- Python whitespace (`str.strip` / the regex class `\s` for `str`
patterns) on the Latin-1 range: space, tab, newline, carriage return,
vertical tab, form feed, the separators U+001C–U+001F, next line (U+0085)
and no-break space (U+00A0).  The whitespace code points above U+00FF are
outside the modelled fragment (they fall under the word-character
approximation of `isWordCh`). -/
def isPySpace (c : Char) : Bool :=
  c.toNat = 32 || c.toNat = 9 || c.toNat = 10 || c.toNat = 13 || c.toNat = 11 || c.toNat = 12 ||
    (28 ≤ c.toNat && c.toNat ≤ 31) || c.toNat = 133 || c.toNat = 160

/-- Drop trailing characters satisfying `p` (helper for two-sided stripping). -/
def dropTrailing (p : Char → Bool) (l : List Char) : List Char :=
  (l.reverse.dropWhile p).reverse

/-- Python `str.strip()` on the character list: remove leading and trailing
whitespace. -/
def pyStripChars (l : List Char) : List Char :=
  dropTrailing isPySpace (l.dropWhile isPySpace)

/-- Python `str.strip()`. -/
def pyStrip (s : String) : String :=
  ⟨pyStripChars s.data⟩

/-- Python `str.lower()` on one character (ASCII fragment). -/
def pyLowerChar (c : Char) : Char :=
  if 65 ≤ c.toNat && c.toNat ≤ 90 then Char.ofNat (c.toNat + 32) else c

/-- Python `str.upper()` on one character (ASCII fragment). -/
def pyUpperChar (c : Char) : Char :=
  if 97 ≤ c.toNat && c.toNat ≤ 122 then Char.ofNat (c.toNat - 32) else c

/-- Python `str.lower()`. -/
def pyLower (s : String) : String :=
  ⟨s.data.map pyLowerChar⟩

/-- Python `str.upper()`. -/
def pyUpper (s : String) : String :=
  ⟨s.data.map pyUpperChar⟩

/-- Python's regex class `\w` for `str` patterns: ASCII letters, digits and
underscore, plus Unicode word characters.  The model is exact on Latin-1:
the letters `ª µ º À–Ö Ø–ö ø–ÿ` and the alphanumeric signs `² ³ ¹ ¼ ½ ¾`
are word characters, `× ÷` and the punctuation are not.  Every code point
from U+0100 up is treated as a word character — an approximation (most such
characters in channel-name text are letters); no claim's statement depends
on where that boundary runs. -/
def isWordCh (c : Char) : Bool :=
  (65 ≤ c.toNat && c.toNat ≤ 90) || (97 ≤ c.toNat && c.toNat ≤ 122) ||
    (48 ≤ c.toNat && c.toNat ≤ 57) || c.toNat = 95 ||
    (192 ≤ c.toNat && c.toNat ≤ 255 && !(c.toNat = 215) && !(c.toNat = 247)) ||
    c.toNat = 170 || c.toNat = 178 || c.toNat = 179 || c.toNat = 181 ||
    c.toNat = 185 || c.toNat = 186 || (188 ≤ c.toNat && c.toNat ≤ 190) ||
    256 ≤ c.toNat

/-- The separator class `[\s_-]` collapsed to a hyphen by `slugify`. -/
def isSepCh (c : Char) : Bool :=
  isPySpace c || c.toNat = 95 || c.toNat = 45

/-- Collapse each run of consecutive hyphens to a single hyphen.  Applied after
mapping every separator to a hyphen, this realizes `re.sub(r"[\s_-]+", "-", s)`
on the filtered string. -/
def squeezeDash : List Char → List Char
  | [] => []
  | [c] => [c]
  | a :: b :: rest =>
    if a = '-' && b = '-' then squeezeDash (b :: rest)
    else a :: squeezeDash (b :: rest)

/-- Python `s.strip("-")`. -/
def stripDash (l : List Char) : List Char :=
  dropTrailing (fun c => c = '-') (l.dropWhile (fun c => c = '-'))

/-- Core of `slugify` from `build.py` on the character list:
`s.strip().lower()`, drop characters outside `[\w\s-]`, collapse `[\s_-]+`
runs to a single `-`, strip hyphens at both ends. -/
def slugCore (l : List Char) : List Char :=
  let l1 := (pyStripChars l).map pyLowerChar
  let l2 := l1.filter (fun c => isWordCh c || isPySpace c || c.toNat = 45)
  let l3 := l2.map (fun c => if isSepCh c then '-' else c)
  stripDash (squeezeDash l3)

/-- `slugify` from `build.py`: lowercase and strip, remove characters outside
`[\w\s-]`, collapse separator runs to one hyphen, trim hyphens, and fall back
to the literal `"item"` when the result is empty. -/
def slugify (s : String) : String :=
  let r := slugCore s.data
  if r.isEmpty then "item" else ⟨r⟩

/-- Does `pat` stand at the head of `l`?  (Python `str.startswith` on lists.) -/
def listStartsWith : List Char → List Char → Bool
  | [], _ => true
  | _ :: _, [] => false
  | p :: ps, c :: cs => p = c && listStartsWith ps cs

/-- Does `needle` occur contiguously inside `hay`?  (Python `needle in hay`.) -/
def hasSub : List Char → List Char → Bool
  | [], needle => needle.isEmpty
  | hay@(_ :: t), needle => listStartsWith needle hay || hasSub t needle

/-- Python substring membership `k in s`. -/
def strContains (s k : String) : Bool :=
  hasSub s.data k.data

/-- The ordered keyword table of `canon_category` (the 9 canonical buckets;
the final row is the default `"other"`). -/
def keywordTable : List (List String × String) :=
  [ (["event", "pass", "ppv", "multipantalla"], "events"),
    (["deport", "sport"], "sports"),
    (["noticia", "news", "econom"], "news"),
    (["cine", "movie", "series", "hbo", "showtime", "cinemax", "max"], "movies"),
    (["entreten", "entertainment", "cable"], "ent"),
    (["document", "history", "discovery", "nat geo", "travel", "tlc"], "docs"),
    (["infantil", "kids", "disney", "nick"], "kids"),
    (["general", "abierta", "generalista"], "general") ]

/-- First-match-wins evaluation of an ordered keyword table over a prepared
(lowercased, stripped) label. -/
def classifyRows (s : String) : List (List String × String) → String
  | [] => "other"
  | (ks, tag) :: rest => if ks.any (fun k => strContains s k) then tag else classifyRows s rest

/-- `canon_category` from `build.py`: lowercase and strip the raw label, then
test the keyword groups in source order, first match wins, default `"other"`. -/
def canon_category (raw : String) : String :=
  let s := pyLower (pyStrip raw)
  if ["event", "pass", "ppv", "multipantalla"].any (fun k => strContains s k) then "events"
  else if ["deport", "sport"].any (fun k => strContains s k) then "sports"
  else if ["noticia", "news", "econom"].any (fun k => strContains s k) then "news"
  else if ["cine", "movie", "series", "hbo", "showtime", "cinemax", "max"].any (fun k => strContains s k) then "movies"
  else if ["entreten", "entertainment", "cable"].any (fun k => strContains s k) then "ent"
  else if ["document", "history", "discovery", "nat geo", "travel", "tlc"].any (fun k => strContains s k) then "docs"
  else if ["infantil", "kids", "disney", "nick"].any (fun k => strContains s k) then "kids"
  else if ["general", "abierta", "generalista"].any (fun k => strContains s k) then "general"
  else "other"

/-- Classification by the table, as §4.3 of the spec words it: prepare the
label the same way, then scan `keywordTable` top-down. -/
def classifyByTable (raw : String) : String :=
  classifyRows (pyLower (pyStrip raw)) keywordTable

/-- JSON values, the shape of the raw records read from `channels.json`.
Numbers are modelled as integers (no field relevant to the pipeline is
fractional); object keys are assumed distinct, as `json.loads` keeps one
binding per key. -/
inductive JVal where
  | jnull : JVal
  | jbool : Bool → JVal
  | jnum : Int → JVal
  | jstr : String → JVal
  | jarr : List JVal → JVal
  | jobj : List (String × JVal) → JVal

/-- Python truthiness of a JSON value: `None`, `False`, `0`, `""`, `[]` and
an empty dict are falsy, everything else truthy. -/
def pyTruthy : JVal → Bool
  | .jnull => false
  | .jbool b => b
  | .jnum n => n ≠ 0
  | .jstr s => s ≠ ""
  | .jarr xs => !xs.isEmpty
  | .jobj kvs => !kvs.isEmpty

/-- Python `dict.get(k)`: the value bound to `k`, or `None` (here `none`). -/
def getKey (kvs : List (String × JVal)) (k : String) : Option JVal :=
  match kvs with
  | [] => none
  | (k', v) :: rest => if k' = k then some v else getKey rest k

/-- Python `a or b` over possibly-missing values (`none` models `None`):
keep `a` when it is truthy, else take `b`. -/
def pyOrO (a b : Option JVal) : Option JVal :=
  match a with
  | some v => if pyTruthy v then some v else b
  | none => b

/-- `pick_str` from `build.py`: first argument that is a string with non-empty
strip, returned stripped; `""` when none qualifies. -/
def pick_str : List (Option JVal) → String
  | [] => ""
  | some (.jstr s) :: rest => if pyStrip s ≠ "" then pyStrip s else pick_str rest
  | _ :: rest => pick_str rest

mutual

/-- Python `str(v)` for a JSON value: identity on strings, `repr` otherwise
(container `repr` simplified: escaping inside nested string quotes elided;
no claim exercises a non-scalar id field). -/
def pyStr : JVal → String
  | .jnull => "None"
  | .jbool true => "True"
  | .jbool false => "False"
  | .jnum n => toString n
  | .jstr s => s
  | .jarr xs => "[" ++ pyStrElems xs ++ "]"
  | .jobj kvs => "\x7b" ++ pyStrPairs kvs ++ "\x7d"

/-- Comma-joined `repr` of list elements. -/
def pyStrElems : List JVal → String
  | [] => ""
  | [x] => pyStrOne x
  | x :: y :: rest => pyStrOne x ++ ", " ++ pyStrElems (y :: rest)

/-- Comma-joined `repr` of dict pairs. -/
def pyStrPairs : List (String × JVal) → String
  | [] => ""
  | [(k, v)] => "'" ++ k ++ "': " ++ pyStrOne v
  | (k, v) :: p :: rest => "'" ++ k ++ "': " ++ pyStrOne v ++ ", " ++ pyStrPairs (p :: rest)

/-- `repr` of one nested value (strings quoted). -/
def pyStrOne : JVal → String
  | .jstr s => "'" ++ s ++ "'"
  | .jnull => "None"
  | .jbool true => "True"
  | .jbool false => "False"
  | .jnum n => toString n
  | .jarr xs => "[" ++ pyStrElems xs ++ "]"
  | .jobj kvs => "\x7b" ++ pyStrPairs kvs ++ "\x7d"

end

/-- `extract_url` from `build.py`: direct aliases `url` / `streamUrl` / `m3u8`
first (Python `or` chain, then the string-and-nonempty-strip check); failing
that, the first element of `streams` / `stream` / `sources` — a dict gets the
same direct-alias lookup, a bare string is used directly; `""` otherwise. -/
def extract_url (kvs : List (String × JVal)) : String :=
  let u := pyOrO (getKey kvs "url") (pyOrO (getKey kvs "streamUrl") (getKey kvs "m3u8"))
  let direct : String :=
    match u with
    | some (.jstr s) => pyStrip s
    | _ => ""
  if direct ≠ "" then direct
  else
    let streams := pyOrO (getKey kvs "streams") (pyOrO (getKey kvs "stream") (getKey kvs "sources"))
    match streams with
    | some (.jarr (s0 :: _)) =>
      match s0 with
      | .jobj skvs =>
        let u2 := pyOrO (getKey skvs "url") (pyOrO (getKey skvs "streamUrl") (getKey skvs "m3u8"))
        (match u2 with
         | some (.jstr s2) => pyStrip s2
         | _ => "")
      | .jstr s2 => pyStrip s2
      | _ => ""
    | _ => ""

/-- Name resolution of the normalizer: `pick_str` over the aliases
`name`, `title`, `label`, `channel`. -/
def resolveName (kvs : List (String × JVal)) : String :=
  pick_str [getKey kvs "name", getKey kvs "title", getKey kvs "label", getKey kvs "channel"]

/-- Country resolution of the normalizer: `pick_str` over `country`, `cc`,
`countryCode`, uppercased, with the sentinel `"XX"` when empty. -/
def resolveCountry (kvs : List (String × JVal)) : String :=
  let c := pyUpper (pick_str [getKey kvs "country", getKey kvs "cc", getKey kvs "countryCode"])
  if c = "" then "XX" else c

/-- Raw category resolution: `pick_str` over `category`, `group`, `type`,
defaulting to the literal `"other"`. -/
def resolveRawCat (kvs : List (String × JVal)) : String :=
  let r := pick_str [getKey kvs "category", getKey kvs "group", getKey kvs "type"]
  if r = "" then "other" else r

/-- The id-source string of `build.py` line 106: the explicit `id` field when
truthy (stringified), else `lowercase-country ++ "_" ++ slugify name`. -/
def idSource (kvs : List (String × JVal)) : String :=
  match getKey kvs "id" with
  | some v => if pyTruthy v then pyStr v else pyLower (resolveCountry kvs) ++ "_" ++ slugify (resolveName kvs)
  | none => pyLower (resolveCountry kvs) ++ "_" ++ slugify (resolveName kvs)

/-- `replaceFirstAux pat repl l`: Python `l.replace(pat, repl, 1)` for a
non-empty pattern — substitute the leftmost occurrence of `pat`, if any. -/
def replaceFirstAux (pat repl : List Char) : List Char → List Char
  | [] => []
  | c :: rest =>
    if listStartsWith pat (c :: rest) then repl ++ (c :: rest).drop pat.length
    else c :: replaceFirstAux pat repl rest

/-- Python `s.replace(pat, repl, 1)`: replace the first occurrence of `pat`
(with the empty pattern matching at position 0). -/
def pyReplaceFirst (s pat repl : String) : String :=
  if pat = "" then ⟨repl.data ++ s.data⟩ else ⟨replaceFirstAux pat.data repl.data s.data⟩

/-- The part of an emitted id after the fixed `"live_"` prefix:
`slugify(str(cid)).replace("live_", "", 1)` (line 107 of `build.py`). -/
def idTail (kvs : List (String × JVal)) : String :=
  pyReplaceFirst (slugify (idSource kvs)) "live_" ""

/-- A normalized channel, the dict appended to `norm` in `build.py`. -/
structure NormChannel where
  id : String
  name : String
  country : String
  cat : String
  logo : String
  desc : String
  url : String
deriving DecidableEq, Repr

/-- Normalization of one raw record (`build.py` lines 90–119): `none` models
the record being skipped, `some` the normalized channel appended to `norm`. -/
def processRecord : JVal → Option NormChannel
  | .jobj kvs =>
    let name := resolveName kvs
    let url := extract_url kvs
    if name = "" || url = "" then none
    else
      some
        { id := "live_" ++ idTail kvs
          name := name
          country := resolveCountry kvs
          cat := canon_category (resolveRawCat kvs)
          logo := pick_str [getKey kvs "logo", getKey kvs "poster", getKey kvs "icon"]
          desc := pick_str [getKey kvs "description", getKey kvs "desc"]
          url := url }
  | _ => none

/-- The normalization loop: the list of normalized channels in input order and
the count of skipped records. -/
def normalizeAll : List JVal → List NormChannel × Nat
  | [] => ([], 0)
  | ch :: rest =>
    let r := normalizeAll rest
    match processRecord ch with
    | some nc => (nc :: r.1, r.2)
    | none => (r.1, r.2 + 1)

/-- The loader (`build.py` lines 53–55): a top-level array is taken as is, an
object yields its `channels` member (defaulting to the empty list), any other
shape — including a non-list `channels` member — is fatal (`none`). -/
def loadChannels (doc : JVal) : Option (List JVal) :=
  match doc with
  | .jarr xs => some xs
  | .jobj kvs =>
    match getKey kvs "channels" with
    | none => some []
    | some (.jarr xs) => some xs
    | some _ => none
  | _ => none

/-- Python `x in l` over strings. -/
def memStr (x : String) : List String → Bool
  | [] => false
  | y :: ys => x = y || memStr x ys

/-- Insert a string into a sorted list of strings (helper for `sorted`). -/
def insertSorted (s : String) : List String → List String
  | [] => [s]
  | t :: ts => if s ≤ t then s :: t :: ts else t :: insertSorted s ts

/-- Python `sorted` over strings (code-point order, as Lean's `String` order). -/
def sortStrs (l : List String) : List String :=
  l.foldr insertSorted []

/-- The fixed 9-entry canonical category table `CANON` of `build.py`. -/
def CANON : List (String × String) :=
  [ ("general", "En directo · Generalistas"),
    ("news", "En directo · Noticias"),
    ("sports", "En directo · Deportes"),
    ("events", "En directo · Eventos / Passes"),
    ("movies", "En directo · Cine / Series"),
    ("ent", "En directo · Entretenimiento"),
    ("docs", "En directo · Documentales"),
    ("kids", "En directo · Infantil"),
    ("other", "En directo · Otros") ]

/-- `sorted(set(...))` of the countries of the parsed channels — the set
`countries` collected by the normalization loop, sorted. -/
def countriesSorted (norm : List NormChannel) : List String :=
  sortStrs ((norm.map (fun x => x.country)).dedup)

/-- `used = sorted(set(x["cat"] for x in norm))`. -/
def usedCats (norm : List NormChannel) : List String :=
  sortStrs ((norm.map (fun x => x.cat)).dedup)

/-- `catalogs = [c for c in CANON if c[0] in used]`: the active categories in
the fixed canonical order. -/
def activeCatalogs (norm : List NormChannel) : List (String × String) :=
  CANON.filter (fun c => memStr c.1 (usedCats norm))

/-- One catalog descriptor of the manifest's `catalogs` list (its constant
`extra` member `[genre, skip]` elided as configuration). -/
structure CatalogDescr where
  ctype : String
  id : String
  name : String
  genres : List String
deriving DecidableEq, Repr

/-- The descriptor appended to `manifest["catalogs"]` for one active
category: type `"tv"`, id `live_<category>`, its display label, and the
sorted country set as the genre enumeration. -/
def mkCatalogDescr (norm : List NormChannel) (c : String × String) : CatalogDescr :=
  { ctype := "tv", id := "live_" ++ c.1, name := c.2, genres := countriesSorted norm }

/-- The manifest's `catalogs` list: one descriptor per active category, in
the order of `CANON`. -/
def manifestCatalogs (norm : List NormChannel) : List CatalogDescr :=
  (activeCatalogs norm).map (mkCatalogDescr norm)

/-- A catalog page entry (the "Meta stub" dict built at `build.py` line 182):
constant type `"tv"` and posterShape `"square"`, the channel id and name, a
singleton genre list holding the country, and the poster only when a logo was
resolved. -/
structure MetaStub where
  mtype : String
  id : String
  name : String
  genres : List String
  posterShape : String
  poster : Option String
deriving DecidableEq, Repr

/-- The meta stub of one normalized channel. -/
def mkMeta (x : NormChannel) : MetaStub :=
  { mtype := "tv", id := x.id, name := x.name, genres := [x.country],
    posterShape := "square",
    poster := if x.logo ≠ "" then some x.logo else none }

/-- The sort key of `cat_channels.sort`: `(country, name.lower())`. -/
def chanKey (x : NormChannel) : String × String :=
  (x.country, pyLower x.name)

/-- Strict lexicographic order on sort keys (Python tuple `<`). -/
def keyLT (a b : String × String) : Bool :=
  a.1 < b.1 || (a.1 = b.1 && a.2 < b.2)

/-- Stable insertion for the sort: a new element goes after every element
whose key is not strictly greater. -/
def insertChan (x : NormChannel) : List NormChannel → List NormChannel
  | [] => [x]
  | y :: ys => if keyLT (chanKey x) (chanKey y) then x :: y :: ys else y :: insertChan x ys

/-- Python's stable `list.sort(key=lambda x: (x["country"], x["name"].lower()))`. -/
def sortChans (l : List NormChannel) : List NormChannel :=
  l.foldl (fun acc x => insertChan x acc) []

/-- The meta stubs of one category's catalog, sorted as `build.py` sorts them. -/
def catMetas (norm : List NormChannel) (catId : String) : List MetaStub :=
  (sortChans (norm.filter (fun x => x.cat = catId))).map mkMeta

/-- The fixed page size of `paginate`. -/
def pageSize : Nat := 100

/-- `terminal_skip = ceil(max(total, 1) / page) * page` (`build.py` line 49,
exact for every input size representable without floating-point error). -/
def terminalSkip (total : Nat) : Nat :=
  ((max total 1 + pageSize - 1) / pageSize) * pageSize

/-- The pages written by `paginate`, keyed by their skip offset: the base page
(`skip = 0`, the `[:page]` slice), one page per `skip in range(page, total,
page)` holding the `[skip : skip+page]` slice, and the terminal empty page. -/
def paginatePages {α : Type} (metas : List α) : List (Nat × List α) :=
  (0, metas.take pageSize)
    :: (List.range ((metas.length - 1) / pageSize)).map
        (fun i => ((i + 1) * pageSize, (metas.drop ((i + 1) * pageSize)).take pageSize))
    ++ [(terminalSkip metas.length, [])]

/-- The country-filtered entries of one category's catalog
(`[m for m in metas if ctry in (m.get("genres") or [])]`; `genres` is always
present and non-empty on a meta stub, so the `or []` guard is membership in
`genres`). -/
def filteredMetas (norm : List NormChannel) (catId ctry : String) : List MetaStub :=
  (catMetas norm catId).filter (fun m => memStr ctry m.genres)

/-- The pages of one country-filtered sub-catalog. -/
def genreCatalogPages (norm : List NormChannel) (catId ctry : String) : List (Nat × List MetaStub) :=
  paginatePages (filteredMetas norm catId ctry)

/-- Every country-filtered sub-catalog emitted by the run: for each active
category, one per country of the global sorted country set, keyed by
`(category tag, country)`. -/
def emittedGenreCatalogs (norm : List NormChannel) :
    List ((String × String) × List (Nat × List MetaStub)) :=
  (activeCatalogs norm).flatMap
    (fun c => (countriesSorted norm).map (fun ctry => ((c.1, ctry), genreCatalogPages norm c.1 ctry)))

/-- A slug-safe character: `[a-z0-9-]`. -/
def isSlugChar (c : Char) : Bool :=
  (97 ≤ c.toNat && c.toNat ≤ 122) || (48 ≤ c.toNat && c.toNat ≤ 57) || c.toNat = 45

/-- No two consecutive hyphens. -/
def noDoubleDash : List Char → Bool
  | [] => true
  | [_] => true
  | a :: b :: rest => !(a = '-' && b = '-') && noDoubleDash (b :: rest)

/-- A well-formed slug as §3 of the spec demands of an id's body: non-empty,
lowercase `[a-z0-9-]+`, and no leading, trailing, or duplicated separator. -/
def goodSlug (l : List Char) : Bool :=
  !l.isEmpty && l.all isSlugChar && noDoubleDash l &&
    !(l.head? == some '-') && !(l.getLast? == some '-')

/-- A character `slugify` can emit besides the hyphen: a word character that
is not a separator and is fixed by lowercasing. -/
def stableCh (c : Char) : Bool :=
  isWordCh c && !isSepCh c && (pyLowerChar c == c)

/-- The shape `slugify`'s output always has (Unicode-tolerant weakening of
`goodSlug`): non-empty, every character a case-stable non-separator word
character or a hyphen, and no leading, trailing, or duplicated hyphen. -/
def goodSlugU (l : List Char) : Bool :=
  !l.isEmpty && l.all (fun c => stableCh c || c = '-') && noDoubleDash l &&
    !(l.head? == some '-') && !(l.getLast? == some '-')

/-- Every character is ASCII. -/
def allAscii (l : List Char) : Bool :=
  l.all (fun c => c.toNat ≤ 127)

/-- The number of positions at which `pat` occurs in `l` (for the non-empty,
non-self-overlapping pattern `"live_"` this is Python's `str.count`). -/
def countOcc (pat : List Char) : List Char → Nat
  | [] => 0
  | c :: rest => (if listStartsWith pat (c :: rest) then 1 else 0) + countOcc pat rest


/-! ### Character-level facts -/

theorem char_toNat_inj {c d : Char} (h : c.toNat = d.toNat) : c = d :=
  (StrictMono.injective (fun _ _ a => a) : Function.Injective Char.toNat) h

theorem toNat_ofNat_valid {n : Nat} (h : n < 55296) : (Char.ofNat n).toNat = n := by
  have hv : n.isValidChar := Or.inl h
  simp only [Char.ofNat, hv, dif_pos]
  rfl

theorem pyLowerChar_not_upper (c : Char) :
    ¬(65 ≤ (pyLowerChar c).toNat ∧ (pyLowerChar c).toNat ≤ 90) := by
  unfold pyLowerChar
  by_cases h : (65 ≤ c.toNat && c.toNat ≤ 90) = true
  · rw [if_pos h]
    simp only [Bool.and_eq_true, decide_eq_true_eq] at h
    rw [toNat_ofNat_valid (by omega)]
    omega
  · rw [if_neg h]
    simp only [Bool.and_eq_true, decide_eq_true_eq, not_and, not_le] at h
    omega

theorem pyLowerChar_eq_self {c : Char} (h : ¬(65 ≤ c.toNat ∧ c.toNat ≤ 90)) :
    pyLowerChar c = c := by
  unfold pyLowerChar
  rw [if_neg]
  simp only [Bool.and_eq_true, decide_eq_true_eq]
  exact h

theorem isSlugChar_iff {c : Char} :
    isSlugChar c = true ↔
      (97 ≤ c.toNat ∧ c.toNat ≤ 122) ∨ (48 ≤ c.toNat ∧ c.toNat ≤ 57) ∨ c.toNat = 45 := by
  simp [isSlugChar, or_assoc]

/-! ### Collapse and strip lemmas -/

theorem squeezeDash_head? : ∀ l : List Char, (squeezeDash l).head? = l.head?
  | [] => rfl
  | [c] => rfl
  | a :: b :: rest => by
    unfold squeezeDash
    by_cases h : (a = '-' && b = '-') = true
    · rw [if_pos h]
      simp only [Bool.and_eq_true, decide_eq_true_eq] at h
      rw [squeezeDash_head? (b :: rest)]
      simp [h.1, h.2]
    · rw [if_neg h]
      rfl

theorem mem_squeezeDash : ∀ l : List Char, ∀ x ∈ squeezeDash l, x ∈ l
  | [] => by simp [squeezeDash]
  | [c] => by simp [squeezeDash]
  | a :: b :: rest => by
    unfold squeezeDash
    by_cases h : (a = '-' && b = '-') = true
    · rw [if_pos h]
      intro x hx
      exact List.mem_cons_of_mem a (mem_squeezeDash (b :: rest) x hx)
    · rw [if_neg h]
      intro x hx
      rcases List.mem_cons.mp hx with h1 | h2
      · exact h1 ▸ List.mem_cons_self a _
      · exact List.mem_cons_of_mem a (mem_squeezeDash (b :: rest) x h2)

theorem noDoubleDash_cons {x : Char} {l : List Char}
    (hh : ∀ y, l.head? = some y → ¬(x = '-' ∧ y = '-')) (hl : noDoubleDash l = true) :
    noDoubleDash (x :: l) = true := by
  cases l with
  | nil => rfl
  | cons y ys =>
    unfold noDoubleDash
    simp only [Bool.and_eq_true, Bool.not_eq_true']
    refine ⟨?_, hl⟩
    by_cases hx : x = '-'
    · by_cases hy : y = '-'
      · exact absurd ⟨hx, hy⟩ (hh y rfl)
      · simp [hy]
    · simp [hx]

theorem noDoubleDash_squeezeDash : ∀ l : List Char, noDoubleDash (squeezeDash l) = true
  | [] => rfl
  | [c] => rfl
  | a :: b :: rest => by
    unfold squeezeDash
    by_cases h : (a = '-' && b = '-') = true
    · rw [if_pos h]
      exact noDoubleDash_squeezeDash (b :: rest)
    · rw [if_neg h]
      refine noDoubleDash_cons ?_ (noDoubleDash_squeezeDash (b :: rest))
      intro y hy hxy
      rw [squeezeDash_head? (b :: rest)] at hy
      simp only [List.head?_cons, Option.some.injEq] at hy
      subst hy
      simp [hxy.1, hxy.2] at h

theorem noDoubleDash_tail {x : Char} {l : List Char} (h : noDoubleDash (x :: l) = true) :
    noDoubleDash l = true := by
  cases l with
  | nil => rfl
  | cons y ys =>
    unfold noDoubleDash at h
    exact (Bool.and_eq_true .. ▸ h).2

theorem noDoubleDash_suffix {l' l : List Char} (hs : l' <:+ l) (h : noDoubleDash l = true) :
    noDoubleDash l' = true := by
  obtain ⟨p, rfl⟩ := hs
  induction p with
  | nil => exact h
  | cons c p ih => exact ih (noDoubleDash_tail h)

theorem noDoubleDash_append_left : ∀ l t : List Char,
    noDoubleDash (l ++ t) = true → noDoubleDash l = true
  | [], _, _ => rfl
  | [c], _, _ => rfl
  | a :: b :: rest, t, h => by
    unfold noDoubleDash at h ⊢
    simp only [List.cons_append, Bool.and_eq_true] at h
    exact Bool.and_eq_true .. ▸ ⟨h.1, noDoubleDash_append_left (b :: rest) t h.2⟩

theorem noDoubleDash_isPfx {l' l : List Char} (hp : l' <+: l) (h : noDoubleDash l = true) :
    noDoubleDash l' = true := by
  obtain ⟨t, rfl⟩ := hp
  exact noDoubleDash_append_left l' t h

theorem head_dropWhile_false {p : Char → Bool} {l : List Char} {x : Char}
    (h : (l.dropWhile p).head? = some x) : p x = false := by
  have hd := List.head?_dropWhile_not p l
  rw [h] at hd
  exact hd

theorem dropTrailing_isPfx (p : Char → Bool) (l : List Char) : dropTrailing p l <+: l := by
  have h : (l.reverse.dropWhile p).reverse.reverse <:+ l.reverse := by
    rw [List.reverse_reverse]
    exact List.dropWhile_suffix p
  have := List.reverse_suffix.mp h
  rwa [← List.reverse_reverse l] at this ⊢

theorem getLast?_dropTrailing_false {p : Char → Bool} {l : List Char} {x : Char}
    (h : (dropTrailing p l).getLast? = some x) : p x = false := by
  rw [List.getLast?_eq_head?_reverse] at h
  unfold dropTrailing at h
  rw [List.reverse_reverse] at h
  exact head_dropWhile_false h

theorem prefix_head? {l1 l2 : List Char} (h : l1 <+: l2) (h2 : l1 ≠ []) :
    l1.head? = l2.head? := by
  obtain ⟨t, rfl⟩ := h
  cases l1 with
  | nil => exact absurd rfl h2
  | cons a l => rfl

theorem mem_of_isPfx {l1 l2 : List Char} (h : l1 <+: l2) {x : Char} (hx : x ∈ l1) : x ∈ l2 := by
  obtain ⟨t, rfl⟩ := h
  exact List.mem_append_left t hx

theorem mem_of_suffix {l1 l2 : List Char} (h : l1 <:+ l2) {x : Char} (hx : x ∈ l1) : x ∈ l2 := by
  obtain ⟨t, rfl⟩ := h
  exact List.mem_append_right t hx

/-! ### Shape of slugify's output -/

theorem slugCore_eq (l : List Char) :
    slugCore l = stripDash (squeezeDash ((((pyStripChars l).map pyLowerChar).filter
      (fun c => isWordCh c || isPySpace c || c.toNat = 45)).map
      (fun c => if isSepCh c then '-' else c))) := rfl

theorem pyLowerChar_idem (c : Char) : pyLowerChar (pyLowerChar c) = pyLowerChar c :=
  pyLowerChar_eq_self (pyLowerChar_not_upper c)

theorem pyLowerChar_ascii {c : Char} (h : c.toNat ≤ 127) : (pyLowerChar c).toNat ≤ 127 := by
  unfold pyLowerChar
  by_cases hc : (65 ≤ c.toNat && c.toNat ≤ 90) = true
  · rw [if_pos hc]
    simp only [Bool.and_eq_true, decide_eq_true_eq] at hc
    rw [toNat_ofNat_valid (by omega)]
    omega
  · rw [if_neg hc]
    exact h

theorem pyStripChars_subset {l : List Char} {o : Char} (h : o ∈ pyStripChars l) : o ∈ l :=
  mem_of_suffix (List.dropWhile_suffix isPySpace)
    (mem_of_isPfx (dropTrailing_isPfx isPySpace (l.dropWhile isPySpace)) h)

theorem slugCore_stage_mem (l : List Char) :
    ∀ x ∈ (((pyStripChars l).map pyLowerChar).filter
        (fun c => isWordCh c || isPySpace c || c.toNat = 45)).map
        (fun c => if isSepCh c then '-' else c),
      x = '-' ∨ (isWordCh x = true ∧ isSepCh x = false ∧ ∃ o ∈ l, x = pyLowerChar o) := by
  intro x hx
  rw [List.mem_map] at hx
  obtain ⟨c, hc, rfl⟩ := hx
  rw [List.mem_filter] at hc
  obtain ⟨hcmem, hkeep⟩ := hc
  rw [List.mem_map] at hcmem
  obtain ⟨o, homem, rfl⟩ := hcmem
  by_cases hsep : isSepCh (pyLowerChar o) = true
  · rw [if_pos hsep]
    exact Or.inl rfl
  · rw [if_neg hsep]
    refine Or.inr ⟨?_, by simpa using hsep, o, pyStripChars_subset homem, rfl⟩
    simp only [Bool.or_eq_true, decide_eq_true_eq] at hkeep
    rcases hkeep with (hw | hs) | h45
    · exact hw
    · exact absurd (by simp [isSepCh, hs]) hsep
    · exact absurd (by simp [isSepCh, h45]) hsep

theorem stripDash_squeeze_shape {l3 : List Char} {q : Char → Bool}
    (hall : ∀ x ∈ l3, q x = true)
    (hne : stripDash (squeezeDash l3) ≠ []) :
    stripDash (squeezeDash l3) ≠ [] ∧
      (∀ x ∈ stripDash (squeezeDash l3), q x = true) ∧
      noDoubleDash (stripDash (squeezeDash l3)) = true ∧
      (∀ y, (stripDash (squeezeDash l3)).head? = some y → y ≠ '-') ∧
      (∀ y, (stripDash (squeezeDash l3)).getLast? = some y → y ≠ '-') := by
  have hpre : stripDash (squeezeDash l3) <+:
      (squeezeDash l3).dropWhile (fun c => c = '-') := dropTrailing_isPfx _ _
  have hsuf : (squeezeDash l3).dropWhile (fun c => c = '-') <:+ squeezeDash l3 :=
    List.dropWhile_suffix _
  refine ⟨hne, ?_, ?_, ?_, ?_⟩
  · exact fun x hx => hall x (mem_squeezeDash l3 x (mem_of_suffix hsuf (mem_of_isPfx hpre hx)))
  · exact noDoubleDash_isPfx hpre (noDoubleDash_suffix hsuf (noDoubleDash_squeezeDash l3))
  · intro y hy
    have hy5 := prefix_head? hpre hne ▸ hy
    have hyd : (decide (y = '-')) = false := head_dropWhile_false hy5
    simpa using hyd
  · intro y hy
    have hzd : (decide (y = '-')) = false := getLast?_dropTrailing_false hy
    simpa using hzd

theorem goodSlug_of_fields {l : List Char} (h1 : l ≠ [])
    (h2 : ∀ x ∈ l, isSlugChar x = true) (h3 : noDoubleDash l = true)
    (h4 : ∀ y, l.head? = some y → y ≠ '-') (h5 : ∀ y, l.getLast? = some y → y ≠ '-') :
    goodSlug l = true := by
  unfold goodSlug
  simp only [Bool.and_eq_true, Bool.not_eq_true', List.all_eq_true]
  refine ⟨⟨⟨⟨by simpa [List.isEmpty_iff] using h1, h2⟩, h3⟩, ?_⟩, ?_⟩
  · cases hh : l.head? with
    | none => rfl
    | some y =>
      rw [beq_eq_false_iff_ne]
      intro hc
      exact h4 y hh (by simpa using hc)
  · cases hh : l.getLast? with
    | none => rfl
    | some y =>
      rw [beq_eq_false_iff_ne]
      intro hc
      exact h5 y hh (by simpa using hc)

theorem goodSlugU_of_fields {l : List Char} (h1 : l ≠ [])
    (h2 : ∀ x ∈ l, stableCh x = true ∨ x = '-') (h3 : noDoubleDash l = true)
    (h4 : ∀ y, l.head? = some y → y ≠ '-') (h5 : ∀ y, l.getLast? = some y → y ≠ '-') :
    goodSlugU l = true := by
  unfold goodSlugU
  simp only [Bool.and_eq_true, Bool.not_eq_true', List.all_eq_true]
  refine ⟨⟨⟨⟨by simpa [List.isEmpty_iff] using h1, ?_⟩, h3⟩, ?_⟩, ?_⟩
  · intro x hx
    rcases h2 x hx with h | rfl
    · simp [h]
    · simp
  · cases hh : l.head? with
    | none => rfl
    | some y =>
      rw [beq_eq_false_iff_ne]
      intro hc
      exact h4 y hh (by simpa using hc)
  · cases hh : l.getLast? with
    | none => rfl
    | some y =>
      rw [beq_eq_false_iff_ne]
      intro hc
      exact h5 y hh (by simpa using hc)

theorem goodSlugU_fields {l : List Char} (h : goodSlugU l = true) :
    l ≠ [] ∧ (∀ x ∈ l, stableCh x = true ∨ x = '-') ∧ noDoubleDash l = true ∧
      (∀ y, l.head? = some y → y ≠ '-') ∧ (∀ y, l.getLast? = some y → y ≠ '-') := by
  unfold goodSlugU at h
  simp only [Bool.and_eq_true, Bool.not_eq_true', List.all_eq_true] at h
  obtain ⟨⟨⟨⟨h1, h2⟩, h3⟩, h4⟩, h5⟩ := h
  refine ⟨by simpa [List.isEmpty_iff] using h1, ?_, h3, ?_, ?_⟩
  · intro x hx
    have hx2 := h2 x hx
    simp only [Bool.or_eq_true, decide_eq_true_eq] at hx2
    exact hx2
  · intro y hy hcon
    rw [hy, hcon] at h4
    simp at h4
  · intro y hy hcon
    rw [hy, hcon] at h5
    simp at h5

theorem slugCore_goodU {l : List Char} (h : slugCore l ≠ []) : goodSlugU (slugCore l) = true := by
  rw [slugCore_eq] at h ⊢
  have hq : ∀ x ∈ (((pyStripChars l).map pyLowerChar).filter
      (fun c => isWordCh c || isPySpace c || c.toNat = 45)).map
      (fun c => if isSepCh c then '-' else c),
      (fun c => stableCh c || decide (c = '-')) x = true := by
    intro x hx
    rcases slugCore_stage_mem l x hx with rfl | ⟨hw, hs, o, -, rfl⟩
    · simp
    · simp only [stableCh, Bool.or_eq_true, Bool.and_eq_true, beq_iff_eq]
      exact Or.inl ⟨⟨hw, by simp [hs]⟩, pyLowerChar_idem o⟩
  obtain ⟨h1, h2, h3, h4, h5⟩ := stripDash_squeeze_shape hq h
  refine goodSlugU_of_fields h1 ?_ h3 h4 h5
  intro x hx
  have hx2 := h2 x hx
  simp only [Bool.or_eq_true, decide_eq_true_eq] at hx2
  exact hx2

theorem slugCore_good_ascii {l : List Char} (hascii : allAscii l = true)
    (h : slugCore l ≠ []) : goodSlug (slugCore l) = true := by
  rw [slugCore_eq] at h ⊢
  have hasc : ∀ o ∈ l, o.toNat ≤ 127 := by
    unfold allAscii at hascii
    rw [List.all_eq_true] at hascii
    intro o ho
    simpa using hascii o ho
  have hq : ∀ x ∈ (((pyStripChars l).map pyLowerChar).filter
      (fun c => isWordCh c || isPySpace c || c.toNat = 45)).map
      (fun c => if isSepCh c then '-' else c), isSlugChar x = true := by
    intro x hx
    rcases slugCore_stage_mem l x hx with rfl | ⟨hw, hs, o, ho, rfl⟩
    · decide
    · have hup := pyLowerChar_not_upper o
      have ha : (pyLowerChar o).toNat ≤ 127 := pyLowerChar_ascii (hasc o ho)
      rw [isSlugChar_iff]
      simp only [isWordCh, Bool.or_eq_true, Bool.and_eq_true, decide_eq_true_eq,
        Bool.not_eq_true', decide_eq_false_iff_not] at hw
      simp only [isSepCh, Bool.or_eq_false_iff, decide_eq_false_iff_not] at hs
      omega
  obtain ⟨h1, h2, h3, h4, h5⟩ := stripDash_squeeze_shape hq h
  exact goodSlug_of_fields h1 h2 h3 h4 h5

/-! ### slugify is the identity on its own output -/

theorem dropWhile_eq_self_of_head {p : Char → Bool} {l : List Char}
    (h : ∀ y, l.head? = some y → p y = false) : l.dropWhile p = l := by
  cases l with
  | nil => rfl
  | cons a t =>
    rw [List.dropWhile_cons, if_neg]
    rw [h a rfl]
    simp

theorem dropTrailing_eq_self_of_last {p : Char → Bool} {l : List Char}
    (h : ∀ y, l.getLast? = some y → p y = false) : dropTrailing p l = l := by
  unfold dropTrailing
  rw [dropWhile_eq_self_of_head, List.reverse_reverse]
  intro y hy
  exact h y (by rwa [List.getLast?_eq_head?_reverse])

theorem map_eq_self_of_mem {f : Char → Char} {l : List Char}
    (h : ∀ x ∈ l, f x = x) : l.map f = l := by
  rw [List.map_congr_left h]
  exact List.map_id' l

theorem squeezeDash_eq_self : ∀ {l : List Char}, noDoubleDash l = true → squeezeDash l = l
  | [], _ => rfl
  | [c], _ => rfl
  | a :: b :: rest, h => by
    unfold noDoubleDash at h
    simp only [Bool.and_eq_true, Bool.not_eq_true'] at h
    unfold squeezeDash
    rw [if_neg (by simp [h.1]), squeezeDash_eq_self h.2]

theorem stable_or_dash_not_space {c : Char} (h : stableCh c = true ∨ c = '-') :
    isPySpace c = false := by
  rcases h with h | rfl
  · simp only [stableCh, Bool.and_eq_true, Bool.not_eq_true'] at h
    have hsep := h.1.2
    simp only [isSepCh, Bool.or_eq_false_iff] at hsep
    exact hsep.1.1
  · decide

theorem stable_or_dash_lower {c : Char} (h : stableCh c = true ∨ c = '-') :
    pyLowerChar c = c := by
  rcases h with h | rfl
  · simp only [stableCh, Bool.and_eq_true, beq_iff_eq] at h
    exact h.2
  · decide

theorem stable_or_dash_keep {c : Char} (h : stableCh c = true ∨ c = '-') :
    (isWordCh c || isPySpace c || c.toNat = 45) = true := by
  rcases h with h | rfl
  · simp only [stableCh, Bool.and_eq_true] at h
    simp [h.1.1]
  · decide

theorem stable_or_dash_sep {c : Char} (h : stableCh c = true ∨ c = '-') :
    (if isSepCh c then '-' else c) = c := by
  rcases h with h | rfl
  · simp only [stableCh, Bool.and_eq_true, Bool.not_eq_true'] at h
    rw [if_neg]
    simp [h.1.2]
  · simp

theorem slugCore_id_of_goodU {l : List Char} (h : goodSlugU l = true) : slugCore l = l := by
  obtain ⟨hne, hall, hndd, hhead, hlast⟩ := goodSlugU_fields h
  have hnospace : ∀ x ∈ l, isPySpace x = false := fun x hx => stable_or_dash_not_space (hall x hx)
  have h1 : pyStripChars l = l := by
    unfold pyStripChars
    rw [dropWhile_eq_self_of_head (fun y hy => hnospace y (by
      cases l with
      | nil => simp at hy
      | cons a t =>
        simp only [List.head?_cons, Option.some.injEq] at hy
        exact hy ▸ List.mem_cons_self a t))]
    exact dropTrailing_eq_self_of_last (fun y hy => hnospace y (List.mem_of_mem_getLast? hy))
  have h2 : l.map pyLowerChar = l :=
    map_eq_self_of_mem (fun x hx => stable_or_dash_lower (hall x hx))
  have h3 : l.filter (fun c => isWordCh c || isPySpace c || c.toNat = 45) = l :=
    List.filter_eq_self.mpr (fun x hx => stable_or_dash_keep (hall x hx))
  have h4 : l.map (fun c => if isSepCh c then '-' else c) = l :=
    map_eq_self_of_mem (fun x hx => stable_or_dash_sep (hall x hx))
  have h5 : squeezeDash l = l := squeezeDash_eq_self hndd
  have h6 : stripDash l = l := by
    unfold stripDash
    rw [dropWhile_eq_self_of_head (fun y hy => by
      rw [decide_eq_false_iff_not]
      exact hhead y hy)]
    exact dropTrailing_eq_self_of_last (fun y hy => by
      rw [decide_eq_false_iff_not]
      exact hlast y hy)
  rw [slugCore_eq, h1, h2, h3, h4, h5, h6]

theorem goodSlugU_nonempty {l : List Char} (h : goodSlugU l = true) : l.isEmpty = false := by
  obtain ⟨hne, -, -, -, -⟩ := goodSlugU_fields h
  simpa [List.isEmpty_iff] using hne

theorem slugify_eq_self_of_goodU {s : String} (h : goodSlugU s.data = true) : slugify s = s := by
  unfold slugify
  rw [slugCore_id_of_goodU h, if_neg (by simp [goodSlugU_nonempty h])]

theorem goodSlugU_item : goodSlugU "item".data = true := by decide

theorem slugify_goodU (s : String) : goodSlugU (slugify s).data = true := by
  unfold slugify
  by_cases h : (slugCore s.data).isEmpty = true
  · rw [if_pos h]
    exact goodSlugU_item
  · rw [if_neg h]
    have hne : slugCore s.data ≠ [] := by
      intro hc
      rw [hc] at h
      exact h rfl
    exact slugCore_goodU hne

theorem goodSlug_item : goodSlug "item".data = true := by decide

theorem slugify_good_ascii {s : String} (hascii : allAscii s.data = true) :
    goodSlug (slugify s).data = true := by
  unfold slugify
  by_cases h : (slugCore s.data).isEmpty = true
  · rw [if_pos h]
    exact goodSlug_item
  · rw [if_neg h]
    have hne : slugCore s.data ≠ [] := by
      intro hc
      rw [hc] at h
      exact h rfl
    exact slugCore_good_ascii hascii hne

/-! ### The fixed prefix and the slug part of ids -/

theorem listStartsWith_mem : ∀ {pat l : List Char}, listStartsWith pat l = true →
    ∀ a ∈ pat, a ∈ l
  | [], _, _, a, ha => absurd ha (List.not_mem_nil a)
  | _ :: _, [], h, _, _ => by simp [listStartsWith] at h
  | p :: ps, c :: cs, h, a, ha => by
    unfold listStartsWith at h
    simp only [Bool.and_eq_true, decide_eq_true_eq] at h
    rcases List.mem_cons.mp ha with h1 | h2
    · exact h1 ▸ h.1 ▸ List.mem_cons_self c cs
    · exact List.mem_cons_of_mem c (listStartsWith_mem h.2 a h2)

theorem underscore_mem_pat : '_' ∈ "live_".data := by decide

theorem replaceFirstAux_of_no_underscore {r : List Char} :
    ∀ {l : List Char}, '_' ∉ l → replaceFirstAux "live_".data r l = l
  | [], _ => rfl
  | c :: rest, h => by
    unfold replaceFirstAux
    rw [if_neg, replaceFirstAux_of_no_underscore (fun hc => h (List.mem_cons_of_mem c hc))]
    intro hsw
    exact h (listStartsWith_mem hsw '_' underscore_mem_pat)

theorem goodSlugU_no_underscore {l : List Char} (h : goodSlugU l = true) : '_' ∉ l := by
  obtain ⟨-, hall, -, -, -⟩ := goodSlugU_fields h
  intro hmem
  exact absurd (hall '_' hmem) (by decide)

theorem idTail_eq_slug (kvs : List (String × JVal)) :
    idTail kvs = slugify (idSource kvs) := by
  unfold idTail pyReplaceFirst
  rw [if_neg (by decide)]
  rw [replaceFirstAux_of_no_underscore
    (goodSlugU_no_underscore (slugify_goodU (idSource kvs)))]

theorem idTail_goodU (kvs : List (String × JVal)) : goodSlugU (idTail kvs).data = true := by
  rw [idTail_eq_slug]
  exact slugify_goodU (idSource kvs)

theorem idTail_good_ascii (kvs : List (String × JVal))
    (h : allAscii (idSource kvs).data = true) : goodSlug (idTail kvs).data = true := by
  rw [idTail_eq_slug]
  exact slugify_good_ascii h

theorem countOcc_zero_of_no_underscore : ∀ {l : List Char}, '_' ∉ l →
    countOcc "live_".data l = 0
  | [], _ => rfl
  | c :: rest, h => by
    unfold countOcc
    rw [if_neg (fun hsw => h (listStartsWith_mem hsw '_' underscore_mem_pat)),
      countOcc_zero_of_no_underscore (fun hc => h (List.mem_cons_of_mem c hc))]

theorem countOcc_prefix_once {t : List Char} (h : '_' ∉ t) :
    countOcc "live_".data ("live_".data ++ t) = 1 := by
  show countOcc "live_".data ('l' :: 'i' :: 'v' :: 'e' :: '_' :: t) = 1
  have h0 : countOcc "live_".data t = 0 := countOcc_zero_of_no_underscore h
  simp [countOcc, listStartsWith, h0]

/-! ### Pagination -/

theorem paginatePages_eq {α : Type} (metas : List α) :
    paginatePages metas =
      (List.range (max ((metas.length + 99) / 100) 1)).map
        (fun i => (i * 100, (metas.drop (i * 100)).take 100))
      ++ [(terminalSkip metas.length, [])] := by
  unfold paginatePages pageSize
  have hK : max ((metas.length + 99) / 100) 1 = (metas.length - 1) / 100 + 1 := by omega
  rw [hK, List.range_succ_eq_map]
  simp only [List.map_cons, List.map_map, List.cons_append]
  rfl

theorem take_100_isEmpty {α : Type} (l : List α) :
    ((l.take 100).isEmpty = true) ↔ l = [] := by
  constructor
  · intro h
    rw [List.isEmpty_iff] at h
    have := congrArg List.length h
    rw [List.length_take] at this
    simp only [List.length_nil] at this
    exact List.length_eq_zero.mp (by omega)
  · intro h
    rw [h]
    rfl

theorem paginatePages_nonempty_count {α : Type} (metas : List α) :
    ((paginatePages metas).filter (fun p => !p.2.isEmpty)).length =
      (metas.length + 99) / 100 := by
  rw [paginatePages_eq, List.filter_append]
  have hterm : List.filter (fun p => !p.2.isEmpty)
      [((terminalSkip metas.length), ([] : List α))] = [] := rfl
  rw [hterm, List.append_nil]
  by_cases h0 : metas.length = 0
  · have hm : metas = [] := List.length_eq_zero.mp h0
    subst hm
    norm_num
  · have hK : max ((metas.length + 99) / 100) 1 = (metas.length + 99) / 100 := by omega
    rw [hK, List.filter_eq_self.mpr, List.length_map, List.length_range]
    intro p hp
    rw [List.mem_map] at hp
    obtain ⟨i, hi, rfl⟩ := hp
    rw [List.mem_range] at hi
    have hlt : i * 100 < metas.length := by omega
    simp only [Bool.not_eq_true']
    rw [Bool.eq_false_iff]
    intro htrue
    have hdrop := (take_100_isEmpty _).mp htrue
    have := congrArg List.length hdrop
    rw [List.length_drop] at this
    simp only [List.length_nil] at this
    omega

theorem paginatePages_last {α : Type} (metas : List α) :
    (paginatePages metas).getLast? = some (terminalSkip metas.length, []) := by
  rw [paginatePages_eq]
  exact List.getLast?_concat ..

theorem paginatePages_empty_only_base {α : Type} (metas : List α) :
    ∀ p ∈ (paginatePages metas).dropLast, p.2 = [] → metas.length = 0 ∧ p.1 = 0 := by
  rw [paginatePages_eq, List.dropLast_concat]
  intro p hp hpe
  rw [List.mem_map] at hp
  obtain ⟨i, hi, rfl⟩ := hp
  rw [List.mem_range] at hi
  have := congrArg List.length hpe
  rw [List.length_take, List.length_drop] at this
  simp only [List.length_nil] at this
  have : metas.length ≤ i * 100 := by omega
  have h00 : metas.length = 0 ∧ i = 0 := by omega
  exact ⟨h00.1, by simp [h00.2]⟩

theorem terminalSkip_spec (total : Nat) :
    (0 < total → terminalSkip total % 100 = 0 ∧ total ≤ terminalSkip total ∧
        ∀ m, m % 100 = 0 → total ≤ m → terminalSkip total ≤ m) ∧
      (total = 0 → terminalSkip total = 100) := by
  unfold terminalSkip pageSize
  refine ⟨fun h => ⟨by omega, by omega, fun m h1 h2 => by omega⟩, fun h => by omega⟩

/-! ### Normalization -/

theorem processRecord_isSome_iff (ch : JVal) :
    (processRecord ch).isSome = true ↔
      ∃ kvs, ch = .jobj kvs ∧ resolveName kvs ≠ "" ∧ extract_url kvs ≠ "" := by
  cases ch with
  | jobj kvs =>
    simp only [processRecord]
    by_cases hn : resolveName kvs = "" <;> by_cases hu : extract_url kvs = "" <;>
      simp [hn, hu]
  | jnull => simp [processRecord]
  | jbool b => simp [processRecord]
  | jnum n => simp [processRecord]
  | jstr s => simp [processRecord]
  | jarr xs => simp [processRecord]

theorem normalizeAll_spec (chs : List JVal) :
    (normalizeAll chs).1 = chs.filterMap processRecord ∧
      (normalizeAll chs).2 = (chs.filter (fun ch => (processRecord ch).isNone)).length := by
  induction chs with
  | nil => exact ⟨rfl, rfl⟩
  | cons ch rest ih =>
    simp only [normalizeAll, List.filterMap_cons, List.filter_cons]
    cases h : processRecord ch with
    | some nc => simp [ih.1, ih.2]
    | none => simp [ih.1, ih.2]

theorem normalizeAll_count (chs : List JVal) :
    (normalizeAll chs).1.length + (normalizeAll chs).2 = chs.length := by
  induction chs with
  | nil => rfl
  | cons ch rest ih =>
    simp only [normalizeAll]
    cases h : processRecord ch with
    | some nc => simpa [List.length_cons] using by omega
    | none => simp only [List.length_cons]; omega

theorem processRecord_fields {kvs : List (String × JVal)} {nc : NormChannel}
    (h : processRecord (.jobj kvs) = some nc) :
    nc.id = "live_" ++ idTail kvs ∧ nc.name = resolveName kvs ∧
      nc.country = resolveCountry kvs ∧ nc.cat = canon_category (resolveRawCat kvs) ∧
      nc.url = extract_url kvs := by
  simp only [processRecord] at h
  by_cases hn : resolveName kvs = "" <;> by_cases hu : extract_url kvs = "" <;>
    simp [hn, hu] at h
  rw [← h]
  exact ⟨rfl, rfl, rfl, rfl, rfl⟩

theorem string_append_left_cancel {a b c : String} (h : a ++ b = a ++ c) : b = c := by
  apply String.ext
  have hd := congrArg String.data h
  rw [String.data_append, String.data_append] at hd
  exact List.append_cancel_left hd

theorem pyUpper_eq_empty_iff (s : String) : pyUpper s = "" ↔ s = "" := by
  constructor
  · intro h
    have hd := congrArg String.data h
    unfold pyUpper at hd
    simp only [List.map_eq_nil_iff] at hd
    exact String.ext (by simpa using hd)
  · intro h
    rw [h]
    rfl

/-! ### Sorted string sets and membership -/

theorem mem_insertSorted {x s : String} :
    ∀ {l : List String}, x ∈ insertSorted s l ↔ x = s ∨ x ∈ l
  | [] => by simp [insertSorted]
  | t :: ts => by
    unfold insertSorted
    by_cases h : s ≤ t
    · rw [if_pos h]
      simp
    · rw [if_neg h]
      simp only [List.mem_cons, mem_insertSorted (l := ts)]
      tauto

theorem mem_sortStrs {x : String} : ∀ {l : List String}, x ∈ sortStrs l ↔ x ∈ l
  | [] => Iff.rfl
  | t :: ts => by
    show x ∈ insertSorted t (sortStrs ts) ↔ _
    rw [mem_insertSorted, mem_sortStrs (l := ts)]
    simp

theorem memStr_iff {x : String} : ∀ {l : List String}, memStr x l = true ↔ x ∈ l
  | [] => by simp [memStr]
  | t :: ts => by
    unfold memStr
    rw [Bool.or_eq_true, decide_eq_true_eq, memStr_iff (l := ts)]
    simp

theorem mem_countriesSorted {norm : List NormChannel} {c : String} :
    c ∈ countriesSorted norm ↔ ∃ ch ∈ norm, ch.country = c := by
  unfold countriesSorted
  rw [mem_sortStrs, List.mem_dedup, List.mem_map]

theorem memStr_usedCats {norm : List NormChannel} {c : String} :
    memStr c (usedCats norm) = true ↔ ∃ ch ∈ norm, ch.cat = c := by
  unfold usedCats
  rw [memStr_iff, mem_sortStrs, List.mem_dedup, List.mem_map]

/-! ### Manifest and sub-catalog lemmas -/

theorem activeCatalogs_eq_filter_any (norm : List NormChannel) :
    activeCatalogs norm = CANON.filter (fun c => norm.any (fun ch => ch.cat = c.1)) := by
  unfold activeCatalogs
  apply List.filter_congr
  intro c hc
  rw [Bool.eq_iff_iff, memStr_usedCats, List.any_eq_true]
  simp

theorem mkCatalogDescr_inj (norm : List NormChannel) {c1 c2 : String × String}
    (h : mkCatalogDescr norm c1 = mkCatalogDescr norm c2) : c1 = c2 := by
  unfold mkCatalogDescr at h
  simp only [CatalogDescr.mk.injEq] at h
  obtain ⟨-, hid, hname, -⟩ := h
  exact Prod.ext (string_append_left_cancel hid) hname

theorem CANON_nodup : CANON.Nodup := by decide

theorem manifestCatalogs_nodup (norm : List NormChannel) : (manifestCatalogs norm).Nodup := by
  unfold manifestCatalogs
  exact List.Nodup.map_on (fun x _ y _ h => mkCatalogDescr_inj norm h)
    (List.Nodup.filter _ CANON_nodup)

theorem mem_insertChan {x y : NormChannel} :
    ∀ {l : List NormChannel}, x ∈ insertChan y l ↔ x = y ∨ x ∈ l
  | [] => by simp [insertChan]
  | t :: ts => by
    unfold insertChan
    by_cases h : keyLT (chanKey y) (chanKey t) = true
    · rw [if_pos h]
      simp
    · rw [if_neg h]
      simp only [List.mem_cons, mem_insertChan (l := ts)]
      tauto

theorem mem_sortChans_aux {x : NormChannel} :
    ∀ (l acc : List NormChannel),
      (x ∈ l.foldl (fun acc y => insertChan y acc) acc ↔ x ∈ acc ∨ x ∈ l)
  | [], acc => by simp
  | t :: ts, acc => by
    show x ∈ ts.foldl (fun acc y => insertChan y acc) (insertChan t acc) ↔ _
    rw [mem_sortChans_aux ts (insertChan t acc), mem_insertChan]
    simp only [List.mem_cons]
    tauto

theorem mem_sortChans {x : NormChannel} {l : List NormChannel} :
    x ∈ sortChans l ↔ x ∈ l := by
  unfold sortChans
  rw [mem_sortChans_aux l []]
  simp

theorem mem_catMetas {norm : List NormChannel} {catId : String} {m : MetaStub} :
    m ∈ catMetas norm catId ↔ ∃ x ∈ norm, x.cat = catId ∧ m = mkMeta x := by
  unfold catMetas
  rw [List.mem_map]
  constructor
  · rintro ⟨x, hx, rfl⟩
    rw [mem_sortChans, List.mem_filter] at hx
    exact ⟨x, hx.1, by simpa using hx.2, rfl⟩
  · rintro ⟨x, hx, hcat, rfl⟩
    exact ⟨x, by rw [mem_sortChans, List.mem_filter]; exact ⟨hx, by simpa using hcat⟩, rfl⟩

theorem catMetas_genres {norm : List NormChannel} {catId : String} {m : MetaStub}
    (h : m ∈ catMetas norm catId) : ∃ x ∈ norm, m.genres = [x.country] := by
  rw [mem_catMetas] at h
  obtain ⟨x, hx, -, rfl⟩ := h
  exact ⟨x, hx, rfl⟩

theorem paginatePages_nil : paginatePages ([] : List MetaStub) = [(0, []), (100, [])] := by
  rw [paginatePages_eq]
  norm_num [terminalSkip, pageSize, List.range_succ]

/-! ## Claims -/

/-- C1: a NormalizedChannel is produced for a raw record if and only if the
record is a mapping and both its name and its url resolve to a non-empty
string via the prioritized alias lookups; every record failing this is
dropped, counted as skipped, and never partially emitted (the output list is
exactly the filter-map of per-record normalization, the skip count is exactly
the number of failing records, and both add up to the input length). -/
theorem claim_c1_normalization_iff :
    (∀ ch : JVal, (processRecord ch).isSome = true ↔
        ∃ kvs, ch = .jobj kvs ∧ resolveName kvs ≠ "" ∧ extract_url kvs ≠ "") ∧
      (∀ chs : List JVal,
        (normalizeAll chs).1 = chs.filterMap processRecord ∧
        (normalizeAll chs).2 = (chs.filter (fun ch => (processRecord ch).isNone)).length ∧
        (normalizeAll chs).1.length + (normalizeAll chs).2 = chs.length) :=
  ⟨processRecord_isSome_iff,
   fun chs => ⟨(normalizeAll_spec chs).1, (normalizeAll_spec chs).2, normalizeAll_count chs⟩⟩

/-- C2: with page size 100, pagination emits exactly `ceil(total/100)`
non-empty pages — the base page at skip 0 first, then pages at skip
100, 200, … each holding the entries `[skip, skip+100)` — and exactly one
trailing empty page, at the first multiple of 100 that is at least `total`
when `total > 0`, and at 100 when `total = 0`. -/
theorem claim_c2_pagination (metas : List MetaStub) :
    pageSize = 100 ∧
    paginatePages metas =
      (List.range (max ((metas.length + 99) / 100) 1)).map
        (fun i => (i * 100, (metas.drop (i * 100)).take 100))
      ++ [(terminalSkip metas.length, [])] ∧
    ((paginatePages metas).filter (fun p => !p.2.isEmpty)).length =
      (metas.length + 99) / 100 ∧
    (paginatePages metas).getLast? = some (terminalSkip metas.length, []) ∧
    (∀ p ∈ (paginatePages metas).dropLast, p.2 = [] → metas.length = 0 ∧ p.1 = 0) ∧
    (0 < metas.length → terminalSkip metas.length % 100 = 0 ∧
        metas.length ≤ terminalSkip metas.length ∧
        ∀ m, m % 100 = 0 → metas.length ≤ m → terminalSkip metas.length ≤ m) ∧
    (metas.length = 0 → terminalSkip metas.length = 100) :=
  ⟨rfl, paginatePages_eq metas, paginatePages_nonempty_count metas,
   paginatePages_last metas, paginatePages_empty_only_base metas,
   (terminalSkip_spec metas.length).1, (terminalSkip_spec metas.length).2⟩

/-- C3: classification is a pure, case-insensitive, first-match-wins
evaluation of the 9 keyword groups in the spec's order (events, sports,
news, movies, ent, docs, kids, general, else other); in particular a label
containing keywords of rules 2 and 3 — both "sport" and "news", or both
"deport" and "noticia" — resolves to rule 2's category, sports. -/
theorem claim_c3_classifier_order :
    (∀ raw : String, canon_category raw = classifyByTable raw) ∧
      canon_category "Sport News" = "sports" ∧
      canon_category "NOTICIAS y deportes" = "sports" :=
  ⟨fun _ => rfl, by decide, by decide⟩

/-- C4 raw record and its normalized channel, the counterexample input. -/
def c4KVs : List (String × JVal) :=
  [("name", .jstr "Alpha"), ("url", .jstr "http://x"), ("country", .jstr "usa")]

/-- The channel `build.py` produces for `c4KVs`. -/
def c4NC : NormChannel :=
  { id := "live_usa-alpha", name := "Alpha", country := "USA", cat := "other",
    logo := "", desc := "", url := "http://x" }

/-- C4 is false as stated: the live code path (`build.py` line 102) upcases
the resolved country without truncating it, so the record with country
`"usa"` yields the 3-letter country `"USA"`, not the 2-letter truncation
`"US"` and not the sentinel `"XX"`.  (The truncating code at lines 125–127
sits after an unconditional `raise` inside `if len(norm) == 0` and never
runs.) -/
theorem claim_c4_counterexample :
    (processRecord (.jobj c4KVs)).map NormChannel.country = some "USA" ∧
      "USA".length = 3 ∧ "USA" ≠ "US" ∧ "USA" ≠ "XX" := by
  refine ⟨by decide, by decide, by decide, by decide⟩

/-- C4 (amended): for every NormalizedChannel the country field is the full
uppercased resolved value — no truncation to two characters — and the fixed
sentinel "XX" exactly when no alias yields a non-empty string. -/
theorem claim_c4_country_amended (kvs : List (String × JVal)) (nc : NormChannel)
    (h : processRecord (.jobj kvs) = some nc) :
    (pick_str [getKey kvs "country", getKey kvs "cc", getKey kvs "countryCode"] = "" →
      nc.country = "XX") ∧
    (pick_str [getKey kvs "country", getKey kvs "cc", getKey kvs "countryCode"] ≠ "" →
      nc.country =
        pyUpper (pick_str [getKey kvs "country", getKey kvs "cc", getKey kvs "countryCode"])) := by
  have hc := (processRecord_fields h).2.2.1
  unfold resolveCountry at hc
  constructor
  · intro he
    rw [hc, he]
    rfl
  · intro hne
    rw [hc, if_neg (fun hup => hne ((pyUpper_eq_empty_iff _).mp hup))]

/-- C4 witness: the amended statement evaluated at the concrete record. -/
theorem claim_c4_amended_witness :
    (pick_str [getKey c4KVs "country", getKey c4KVs "cc", getKey c4KVs "countryCode"] = "" →
      c4NC.country = "XX") ∧
    (pick_str [getKey c4KVs "country", getKey c4KVs "cc", getKey c4KVs "countryCode"] ≠ "" →
      c4NC.country =
        pyUpper (pick_str [getKey c4KVs "country", getKey c4KVs "cc", getKey c4KVs "countryCode"])) :=
  claim_c4_country_amended c4KVs c4NC (by decide)

/-- C5: identifier generation never double-applies the fixed prefix
`"live_"`: for every raw record whose explicit id already carries the
prefix, the emitted id contains exactly one occurrence of the prefix. -/
theorem claim_c5_single_pfx (kvs : List (String × JVal)) (nc : NormChannel) (s : String)
    (h : processRecord (.jobj kvs) = some nc)
    (hid : getKey kvs "id" = some (.jstr s))
    (hpref : listStartsWith "live_".data s.data = true) :
    countOcc "live_".data nc.id.data = 1 := by
  rw [(processRecord_fields h).1, String.data_append]
  exact countOcc_prefix_once (goodSlugU_no_underscore (idTail_goodU kvs))

/-- C5 raw record with an explicit already-prefixed id. -/
def c5KVs : List (String × JVal) :=
  [("name", .jstr "Chan"), ("url", .jstr "u"), ("id", .jstr "live_abc")]

/-- The channel `build.py` produces for `c5KVs`. -/
def c5NC : NormChannel :=
  { id := "live_live-abc", name := "Chan", country := "XX", cat := "other",
    logo := "", desc := "", url := "u" }

/-- C5 witness: the record with explicit id `"live_abc"` yields an id with
exactly one occurrence of the prefix. -/
theorem claim_c5_witness : countOcc "live_".data c5NC.id.data = 1 :=
  claim_c5_single_pfx c5KVs c5NC "live_abc" (by decide) rfl (by decide)

/-- C6 counterexample record: a Spanish channel name whose letter `ñ` is a
word character for Python's regex `\w`, so slugify keeps it. -/
def c6KVs : List (String × JVal) :=
  [("name", .jstr "España"), ("url", .jstr "u")]

/-- C6 is false as stated: the record named `"España"` yields the id
`"live_" ++ "xx-españa"`, whose body contains `ñ` and therefore does not
match `[a-z0-9-]+` — slugify's `re.sub(r"[^\w\s-]", "", s)` keeps Unicode
word characters, so ids are not slug-safe in the claimed ASCII sense. -/
theorem claim_c6_counterexample :
    (processRecord (.jobj c6KVs)).map NormChannel.id = some ("live_" ++ "xx-españa") ∧
      goodSlug "xx-españa".data = false := by
  refine ⟨by decide, by decide⟩

/-- C6 (amended): every emitted id is the fixed prefix `"live_"` followed by
a non-empty string that contains no underscore and no whitespace, has no
leading, trailing, or duplicated hyphen, and whose every character is a
case-stable non-separator word character or a hyphen; when the id-source
string is pure ASCII, that body moreover matches `[a-z0-9-]+`.  (Non-ASCII
word characters such as `ñ` survive slugification, so the `[a-z0-9-]+`
bound holds only on ASCII input.) -/
theorem claim_c6_id_shape (kvs : List (String × JVal)) (nc : NormChannel)
    (h : processRecord (.jobj kvs) = some nc) :
    ∃ t : String, nc.id = "live_" ++ t ∧ goodSlugU t.data = true ∧ '_' ∉ t.data ∧
      (∀ c ∈ t.data, isPySpace c = false) ∧
      (allAscii (idSource kvs).data = true → goodSlug t.data = true) :=
  ⟨idTail kvs, (processRecord_fields h).1, idTail_goodU kvs,
   goodSlugU_no_underscore (idTail_goodU kvs),
   fun c hc => stable_or_dash_not_space ((goodSlugU_fields (idTail_goodU kvs)).2.1 c hc),
   fun ha => idTail_good_ascii kvs ha⟩

/-- C6 witness raw record (pure-ASCII name). -/
def c6WitKVs : List (String × JVal) :=
  [("name", .jstr "My Channel"), ("url", .jstr "u")]

/-- The channel `build.py` produces for `c6WitKVs`. -/
def c6WitNC : NormChannel :=
  { id := "live_xx-my-channel", name := "My Channel", country := "XX", cat := "other",
    logo := "", desc := "", url := "u" }

/-- C6 witness: the amended id shape at a concrete record. -/
theorem claim_c6_witness :
    ∃ t : String, c6WitNC.id = "live_" ++ t ∧ goodSlugU t.data = true ∧ '_' ∉ t.data ∧
      (∀ c ∈ t.data, isPySpace c = false) ∧
      (allAscii (idSource c6WitKVs).data = true → goodSlug t.data = true) :=
  claim_c6_id_shape c6WitKVs c6WitNC (by decide)

/-- C7 input: two distinct records with the same name, no country and no
explicit id. -/
def c7Input : List JVal :=
  [ .jobj [("name", .jstr "Alpha"), ("url", .jstr "http://one")],
    .jobj [("name", .jstr "Alpha"), ("url", .jstr "http://two")] ]

/-- C7 is false as stated: one run over `c7Input` yields two distinct
NormalizedChannels (their urls differ) carrying the same id
`"live_xx-alpha"` — nothing deduplicates synthesized ids. -/
theorem claim_c7_counterexample :
    (normalizeAll c7Input).1.map NormChannel.id = ["live_xx-alpha", "live_xx-alpha"] ∧
      (normalizeAll c7Input).1.length = 2 ∧
      (normalizeAll c7Input).1[0]? ≠ (normalizeAll c7Input).1[1]? := by
  refine ⟨by decide, by decide, by decide⟩

/-- C7 (amended): ids are not globally unique; two NormalizedChannels of one
run carry the same id exactly when the slugified id-source strings of their
records coincide (so channels whose id sources slugify differently do get
different ids). -/
theorem claim_c7_id_collision (kvs1 kvs2 : List (String × JVal)) (nc1 nc2 : NormChannel)
    (h1 : processRecord (.jobj kvs1) = some nc1)
    (h2 : processRecord (.jobj kvs2) = some nc2) :
    nc1.id = nc2.id ↔ idTail kvs1 = idTail kvs2 := by
  rw [(processRecord_fields h1).1, (processRecord_fields h2).1]
  exact ⟨fun h => string_append_left_cancel h, fun h => by rw [h]⟩

/-- First record of `c7Input` as a key-value list. -/
def c7KVs1 : List (String × JVal) := [("name", .jstr "Alpha"), ("url", .jstr "http://one")]

/-- Second record of `c7Input` as a key-value list. -/
def c7KVs2 : List (String × JVal) := [("name", .jstr "Alpha"), ("url", .jstr "http://two")]

/-- The channel of the first C7 record. -/
def c7NC1 : NormChannel :=
  { id := "live_xx-alpha", name := "Alpha", country := "XX", cat := "other",
    logo := "", desc := "", url := "http://one" }

/-- The channel of the second C7 record. -/
def c7NC2 : NormChannel :=
  { id := "live_xx-alpha", name := "Alpha", country := "XX", cat := "other",
    logo := "", desc := "", url := "http://two" }

/-- C7 witness: the amended characterization at the two concrete records. -/
theorem claim_c7_witness : c7NC1.id = c7NC2.id ↔ idTail c7KVs1 = idTail c7KVs2 :=
  claim_c7_id_collision c7KVs1 c7KVs2 c7NC1 c7NC2 (by decide) (by decide)

/-- C8: the manifest's catalog list is exactly one descriptor per canonical
category having at least one NormalizedChannel, in the fixed order of the
9-entry `CANON` table (it is the `CANON`-filter of the active categories);
every listed descriptor has a channel, every active canonical category is
listed, and no descriptor repeats. -/
theorem claim_c8_manifest (norm : List NormChannel) :
    manifestCatalogs norm =
      (CANON.filter (fun c => norm.any (fun ch => ch.cat = c.1))).map (mkCatalogDescr norm) ∧
    (∀ d ∈ manifestCatalogs norm, ∃ ch ∈ norm, "live_" ++ ch.cat = d.id) ∧
    (∀ c ∈ CANON, (∃ ch ∈ norm, ch.cat = c.1) → mkCatalogDescr norm c ∈ manifestCatalogs norm) ∧
    (manifestCatalogs norm).Nodup := by
  refine ⟨?_, ?_, ?_, manifestCatalogs_nodup norm⟩
  · unfold manifestCatalogs
    rw [activeCatalogs_eq_filter_any]
  · intro d hd
    unfold manifestCatalogs at hd
    rw [List.mem_map] at hd
    obtain ⟨c, hc, rfl⟩ := hd
    unfold activeCatalogs at hc
    rw [List.mem_filter] at hc
    obtain ⟨-, hmem⟩ := hc
    obtain ⟨ch, hch, hcat⟩ := memStr_usedCats.mp hmem
    exact ⟨ch, hch, by rw [hcat]; rfl⟩
  · intro c hc hex
    unfold manifestCatalogs
    rw [List.mem_map]
    refine ⟨c, ?_, rfl⟩
    unfold activeCatalogs
    rw [List.mem_filter]
    exact ⟨hc, memStr_usedCats.mpr hex⟩

/-- C9: the slug generator is pure and idempotent:
`slugify (slugify x) = slugify x` for every string. -/
theorem claim_c9_slugify_idempotent (x : String) : slugify (slugify x) = slugify x :=
  slugify_eq_self_of_goodU (slugify_goodU x)

/-- C10: for every active category and every country observed anywhere among
the parsed channels, a genre-filtered sub-catalog is emitted; when the
country has no channels in that category it still consists of an empty base
page plus the empty terminal page at skip 100; its entries are exactly the
category entries whose single genre equals that country code; and every
parsed channel's country is in the enumerated country set. -/
theorem claim_c10_genre_subcatalogs (norm : List NormChannel) (c : String × String)
    (ctry : String) (hc : c ∈ activeCatalogs norm) (hctry : ctry ∈ countriesSorted norm) :
    ((c.1, ctry), genreCatalogPages norm c.1 ctry) ∈ emittedGenreCatalogs norm ∧
    (filteredMetas norm c.1 ctry = [] →
      genreCatalogPages norm c.1 ctry = [(0, []), (100, [])]) ∧
    (∀ m, m ∈ filteredMetas norm c.1 ctry ↔ m ∈ catMetas norm c.1 ∧ m.genres = [ctry]) ∧
    (∀ ch ∈ norm, ch.country ∈ countriesSorted norm) := by
  refine ⟨?_, ?_, ?_, ?_⟩
  · unfold emittedGenreCatalogs
    rw [List.mem_flatMap]
    exact ⟨c, hc, List.mem_map.mpr ⟨ctry, hctry, rfl⟩⟩
  · intro h
    unfold genreCatalogPages
    rw [h, paginatePages_nil]
  · intro m
    unfold filteredMetas
    rw [List.mem_filter]
    constructor
    · rintro ⟨hmem, hms⟩
      refine ⟨hmem, ?_⟩
      obtain ⟨x, -, hg⟩ := catMetas_genres hmem
      rw [hg] at hms ⊢
      rw [memStr_iff] at hms
      simp only [List.mem_singleton] at hms
      rw [hms]
    · rintro ⟨hmem, hg⟩
      refine ⟨hmem, ?_⟩
      rw [hg, memStr_iff]
      exact List.mem_singleton_self ctry
  · intro ch hch
    exact mem_countriesSorted.mpr ⟨ch, hch, rfl⟩

/-- C10's concrete channel. -/
def c10NC : NormChannel :=
  { id := "live_xx-a", name := "A", country := "XX", cat := "other",
    logo := "", desc := "", url := "u" }

/-- C10 witness: the statement at one concrete normalized list, the active
category `other`, and the observed country `XX`. -/
theorem claim_c10_witness :
    ((("other", "En directo · Otros").1, "XX"),
        genreCatalogPages [c10NC] ("other", "En directo · Otros").1 "XX") ∈
      emittedGenreCatalogs [c10NC] ∧
    (filteredMetas [c10NC] ("other", "En directo · Otros").1 "XX" = [] →
      genreCatalogPages [c10NC] ("other", "En directo · Otros").1 "XX" = [(0, []), (100, [])]) ∧
    (∀ m, m ∈ filteredMetas [c10NC] ("other", "En directo · Otros").1 "XX" ↔
      m ∈ catMetas [c10NC] ("other", "En directo · Otros").1 ∧ m.genres = ["XX"]) ∧
    (∀ ch ∈ [c10NC], ch.country ∈ countriesSorted [c10NC]) :=
  claim_c10_genre_subcatalogs [c10NC] ("other", "En directo · Otros") "XX"
    (by decide) (by decide)
